import Mathlib

/-!
# Verification of the tastytrade-cli portfolio TUI (src/main.rs)

Shallow embedding of the portfolio model, navigation state and renderer of
`src/main.rs`, together with proofs about the spec's claims.

Modelling conventions:
* `f64` is modelled by `FloatVal`: a finite rational, NaN, +Inf or -Inf.
  Arithmetic on finite values is exact rational arithmetic (IEEE rounding and
  overflow are not modelled; the claims below only evaluate float arithmetic
  at inputs where IEEE 754 is exact, e.g. `(2.4 + 2.6) / 2.0 == 2.5` holds
  exactly in `f64`).
* `rust_decimal::Decimal` is modelled by `ℚ`.  `round_dp` uses the crate's
  default strategy (banker's rounding / midpoint-nearest-even).  Division by a
  zero `Decimal` panics in the crate; it is modelled by `decDiv` returning
  `none`.  `Decimal::from_f64` returns `none` on non-finite inputs.
* Rust panics (`unwrap` on `None`, division by zero, `usize` underflow in
  debug builds) are modelled by `Option`-valued functions returning `none`.
* `BTreeMap` iteration is modelled by association lists in iteration order.
-/

/-- Model of an `f64` value: a finite (exact rational) value, NaN, or ±Inf. -/
inductive FloatVal where
  | finite (q : ℚ)
  | nan
  | inf
  | neginf
deriving DecidableEq, Repr

/-- Whether a float value is finite. -/
def FloatVal.isFinite : FloatVal → Bool
  | .finite _ => true
  | _ => false

/-- Addition of `f64` values (`quote.bid_price + quote.ask_price`).  Finite values add
exactly; the IEEE special-value rules for NaN and infinities are kept. -/
def fadd : FloatVal → FloatVal → FloatVal
  | .nan, _ => .nan
  | _, .nan => .nan
  | .inf, .neginf => .nan
  | .neginf, .inf => .nan
  | .inf, _ => .inf
  | _, .inf => .inf
  | .neginf, _ => .neginf
  | _, .neginf => .neginf
  | .finite a, .finite b => .finite (a + b)

/-- Division of an `f64` by two (`... / 2.0`); exact on finite values (halving a
binary float is exact in IEEE 754 away from the subnormal range). -/
def fdiv2 : FloatVal → FloatVal
  | .finite a => .finite (a / 2)
  | v => v

/-- Model of `rust_decimal::Decimal`: an exact rational. -/
abbrev Decimal := ℚ

/-- Round a rational to an integer, ties to even (the default
`rust_decimal` midpoint strategy used by `round_dp`). -/
def bankersRound (q : ℚ) : ℤ :=
  let f := ⌊q⌋
  let r := q - (f : ℚ)
  if r < 1/2 then f
  else if 1/2 < r then f + 1
  else if f % 2 = 0 then f else f + 1

/-- Model of `Decimal::round_dp(dp)`. -/
def roundDp (dp : ℕ) (q : ℚ) : ℚ :=
  (bankersRound (q * 10 ^ dp) : ℚ) / 10 ^ dp

/-- Conversion `Decimal::from_f64`: fails (returns `None`) on NaN and infinities. -/
def Decimal.fromF64 : FloatVal → Option ℚ
  | .finite q => some q
  | _ => none

/-- Division of `Decimal` values.  `rust_decimal`'s `Div` impl panics on a zero
divisor ("Division by zero"); modelled by `none`. -/
def decDiv (a b : ℚ) : Option ℚ :=
  if b = 0 then none else some (a / b)

/-- Subtraction of `usize` values as in a debug build: underflow panics (`none`). -/
def usizeSub (a b : ℕ) : Option ℕ :=
  if b ≤ a then some (a - b) else none

/-- The direction type `tastytrade_rs::api::position::QuantityDirection`. -/
inductive QuantityDirection where
  | Long
  | Short
  | Zero
deriving DecidableEq, Repr

/-- The struct `SimpleGreeks { theta: f64, delta: f64 }` (raw floats). -/
structure SimpleGreeks where
  theta : FloatVal
  delta : FloatVal
deriving DecidableEq, Repr

/-- The struct `PriceRecord` (`Symbol` and `DxFeedSymbol` are strings). -/
structure PriceRecord where
  symbol : String
  «open» : Decimal
  current : Decimal
  amount : Decimal
  multiplier : Decimal
  direction : QuantityDirection
  greeks : SimpleGreeks
deriving DecidableEq, Repr

/-- The struct `UnderlyingGroup`, with `open: bool` and a `BTreeMap` of records;
the map is modelled as its association list in iteration (sorted-key) order. -/
structure UnderlyingGroup where
  «open» : Bool
  records : List (String × PriceRecord)
deriving DecidableEq, Repr

/-- The part of `tui::widgets::TableState` the program uses: the selection. -/
structure TableState where
  selected : Option ℕ
deriving DecidableEq, Repr

/-- The struct `App`. -/
structure App where
  state : TableState
  groups : List (String × UnderlyingGroup)
  num_lines : ℕ
  balances : List (String × Decimal)
deriving DecidableEq, Repr

/-- The number of child rows a group contributes to the flattened view. -/
def childCount (g : UnderlyingGroup) : ℕ :=
  if g.«open» then g.records.length else 0

/-- Method `App::update_num_lines`: fold over the groups starting from
`groups.len()`, adding each open group's record count. -/
def App.update_num_lines (app : App) : App :=
  { app with
    num_lines :=
      app.groups.foldl (fun acc p => acc + childCount p.2) app.groups.length }

/-- Constructor `App::new`: seed the state and compute `num_lines`. -/
def App.new (records : List (String × UnderlyingGroup))
    (balances : List (String × Decimal)) : App :=
  App.update_num_lines
    { state := { selected := none }
      groups := records
      num_lines := 0
      balances := balances }

/-- The loop body of `App::toggle_group`: walk the groups with a running row
counter `i`; at the group whose header row equals the selection, flip its
`open` flag and stop. -/
def toggleAux (s : ℕ) : List (String × UnderlyingGroup) → ℕ → List (String × UnderlyingGroup)
  | [], _ => []
  | (u, g) :: rest, i =>
    if i = s then (u, { g with «open» := !g.«open» }) :: rest
    else (u, g) :: toggleAux s rest (i + 1 + childCount g)

/-- Method `App::toggle_group`. -/
def App.toggle_group (app : App) : App :=
  match app.state.selected with
  | none => app
  | some s => App.update_num_lines { app with groups := toggleAux s app.groups 0 }

/-- Method `App::next`.  The `None` arm sets the selection to 0 without touching
`num_lines`; the `Some` arm evaluates `self.num_lines - 1` on a `usize`,
which underflows (panics in debug builds) when `num_lines == 0`. -/
def App.next (app : App) : Option App :=
  match app.state.selected with
  | some i =>
    (usizeSub app.num_lines 1).map fun m =>
      { app with state := { selected := some (if m ≤ i then 0 else i + 1) } }
  | none => some { app with state := { selected := some 0 } }

/-- Method `App::previous`. -/
def App.previous (app : App) : Option App :=
  match app.state.selected with
  | some i =>
    if i = 0 then
      (usizeSub app.num_lines 1).map fun m =>
        { app with state := { selected := some m } }
    else some { app with state := { selected := some (i - 1) } }
  | none => some { app with state := { selected := some 0 } }

/-- The record-level search of `App::get_record`: first record in the list
whose `DxFeedSymbol` key equals `symbol`. -/
def findRec (symbol : String) : List (String × PriceRecord) → Option PriceRecord
  | [] => none
  | (s, r) :: rest => if s = symbol then some r else findRec symbol rest

/-- The group-level search of `App::get_record`: scan groups in order, then
records in order, returning the first record keyed by `symbol`. -/
def lookupRec (symbol : String) : List (String × UnderlyingGroup) → Option PriceRecord
  | [] => none
  | (_, g) :: rest =>
    match findRec symbol g.records with
    | some r => some r
    | none => lookupRec symbol rest

/-- Method `App::get_record`. -/
def App.get_record (app : App) (symbol : String) : Option PriceRecord :=
  lookupRec symbol app.groups

/-- Apply `f` to the first record keyed by `symbol`, if any (`none` when the
key is absent).  This is the effect of mutating through the `&mut PriceRecord`
returned by `App::get_record`. -/
def updateFirstRec (symbol : String) (f : PriceRecord → PriceRecord) :
    List (String × PriceRecord) → Option (List (String × PriceRecord))
  | [] => none
  | (s, r) :: rest =>
    if s = symbol then some ((s, f r) :: rest)
    else (updateFirstRec symbol f rest).map ((s, r) :: ·)

/-- Lift `updateFirstRec` over the groups: the first group containing the key
has its record updated; when no group contains it, nothing changes. -/
def updateFirstGroup (symbol : String) (f : PriceRecord → PriceRecord) :
    List (String × UnderlyingGroup) → List (String × UnderlyingGroup)
  | [] => []
  | (u, g) :: rest =>
    match updateFirstRec symbol f g.records with
    | some recs => (u, { g with records := recs }) :: rest
    | none => (u, g) :: updateFirstGroup symbol f rest

/-- The `EventData::Quote` arm of the event loop:
`record.current = Decimal::from_f64((bid + ask) / 2.0).unwrap_or_default()`.
`unwrap_or_default()` substitutes `Decimal::ZERO` when the conversion fails. -/
def applyQuote (app : App) (symbol : String) (bid ask : FloatVal) : App :=
  { app with
    groups :=
      updateFirstGroup symbol
        (fun r => { r with current := (Decimal.fromF64 (fdiv2 (fadd bid ask))).getD 0 })
        app.groups }

/-- The `EventData::Greeks` arm of the event loop: overwrite the record's
greeks with the raw floats. -/
def applyGreeks (app : App) (symbol : String) (theta delta : FloatVal) : App :=
  { app with
    groups :=
      updateFirstGroup symbol
        (fun r => { r with greeks := { theta := theta, delta := delta } })
        app.groups }

/-- A rendered table cell: a percentage cell (the string gets a `"%"`
suffix), a stringified `Decimal`, or plain text. -/
inductive CellVal where
  | pct (q : ℚ)
  | num (q : ℚ)
  | txt (s : String)
deriving DecidableEq, Repr

/-- The sign multiplier: `-1` for `Short`, `+1` otherwise. -/
def sign (d : QuantityDirection) : ℚ :=
  match d with
  | .Short => -1
  | _ => 1

/-- The `to_net` closure of `ui`:
`(value * rec.amount * rec.multiplier * sign).round_dp(2)`. -/
def to_net (r : PriceRecord) (value : ℚ) : ℚ :=
  roundDp 2 (value * r.amount * r.multiplier * sign r.direction)

/-- A record's signed net-liq contribution, `to_net(rec.current)`. -/
def signed_value (r : PriceRecord) : ℚ :=
  to_net r r.current

/-- The `total` pre-pass of `ui`: sum of `signed_value` over every record of
every group (cash not yet added). -/
def position_total (app : App) : ℚ :=
  app.groups.foldl
    (fun acc p => acc + p.2.records.foldl (fun a q => a + signed_value q.2) 0) 0

/-- The `profit_sum` accumulated over a group's records in `ui`. -/
def groupProfitSum (g : UnderlyingGroup) : ℚ :=
  g.records.foldl (fun a p => a + to_net p.2 (p.2.current - p.2.«open»)) 0

/-- The `net_liq_sum` accumulated over a group's records in `ui`. -/
def groupNetLiqSum (g : UnderlyingGroup) : ℚ :=
  g.records.foldl (fun a p => a + to_net p.2 p.2.current) 0

/-- Variant of `List.mapM` specialised to `Option`, written by structural recursion so
that a single failing element makes the whole traversal fail. -/
def mapOptM (f : α → Option β) : List α → Option (List β)
  | [] => some []
  | a :: l => do
    let b ← f a
    let bs ← mapOptM f l
    pure (b :: bs)

/-- One position row of `ui` (only emitted when the group is open).  The
`Decimal::from_f64(...).unwrap()` calls on the greeks panic (`none`) on
NaN/Inf, and the PORT % division panics (`none`) when `total` is zero. -/
def renderRecordRow (underlying : String) (total : ℚ) (r : PriceRecord) :
    Option (List CellVal) := do
  let theta ← Decimal.fromF64 r.greeks.theta
  let thetaN := to_net r theta
  let delta ← Decimal.fromF64 r.greeks.delta
  let deltaN := to_net r delta
  let net_liq := to_net r r.current
  let portPct ← decDiv (net_liq * 100) total
  let name := if r.symbol = underlying then "SHARES" else r.symbol
  pure
    [ .pct (roundDp 2 portPct)
    , .txt (" " ++ name)
    , .num (roundDp 2 r.current)
    , .num (roundDp 5 (r.amount * sign r.direction))
    , .num r.«open»
    , .num (to_net r (r.current - r.«open»))
    , .num thetaN
    , .num deltaN
    , .num net_liq ]

/-- The rows emitted by `ui` for one group: the header row (computed from the
record sums) followed, when the group is open, by one row per record.  The
header's PORT % division also panics (`none`) on a zero `total`. -/
def renderGroup (total : ℚ) (underlying : String) (g : UnderlyingGroup) :
    Option (List (List CellVal)) := do
  let children ←
    if g.«open» then mapOptM (fun p => renderRecordRow underlying total p.2) g.records
    else pure []
  let hdrPct ← decDiv (groupNetLiqSum g * 100) total
  let header : List CellVal :=
    [ .pct (roundDp 2 hdrPct)
    , .txt underlying
    , .txt ""
    , .txt ""
    , .txt ""
    , .num (roundDp 2 (groupProfitSum g))
    , .txt ""
    , .txt ""
    , .num (roundDp 2 (groupNetLiqSum g)) ]
  pure (header :: children)

/-- The renderer `fn ui`: the full frame, as the list of row cell-lists, or `none` when
row construction panics.  After the group rows come a blank row, the `CASH`
header, one row per account balance, a blank row, and the `TOTAL` row whose
value adds the cash balances to `position_total`. -/
def ui (app : App) : Option (List (List CellVal)) := do
  let total := position_total app
  let groupRows ← mapOptM (fun p => renderGroup total p.1 p.2) app.groups
  let cashRows := app.balances.map fun p => [CellVal.txt (" " ++ p.1), CellVal.num p.2]
  let grand := app.balances.foldl (fun a p => a + p.2) total
  pure
    (groupRows.flatten ++ [[CellVal.txt ""]] ++ [[CellVal.txt "CASH"]] ++ cashRows
      ++ [[CellVal.txt ""]] ++ [[CellVal.txt "TOTAL", CellVal.num grand]])

/-- The `AccountMessage::AccountBalance` arm of the event loop:
`app.balances.insert(account_number, cash_balance)` on the `BTreeMap`
(overwrite an existing key, otherwise insert in sorted key position). -/
def insertSorted (key : String) (v : Decimal) : List (String × Decimal) → List (String × Decimal)
  | [] => [(key, v)]
  | (k, w) :: rest =>
    if key = k then (key, v) :: rest
    else if key < k then (key, v) :: (k, w) :: rest
    else (k, w) :: insertSorted key v rest

/-- The balance-event arm of the event loop. -/
def applyBalance (app : App) (account : String) (v : Decimal) : App :=
  { app with balances := insertSorted account v app.balances }

/-- Number of rows of the flattened display contributed by a list of groups:
one header row per group plus the records of each open group. -/
def linesOf : List (String × UnderlyingGroup) → ℕ
  | [] => 0
  | p :: rest => 1 + childCount p.2 + linesOf rest

/-- Which group (if any) the walk of `toggle_group` stops at: starting the
row counter at `i`, returns the position (within the list) of the group whose
header row index equals the selection `s`. -/
def headerHit (s : ℕ) : List (String × UnderlyingGroup) → ℕ → Option ℕ
  | [], _ => none
  | (_, g) :: rest, i =>
    if i = s then some 0
    else (headerHit s rest (i + 1 + childCount g)).map (· + 1)

/-- Flip the `open` flag of the group at position `k`. -/
def flipAt : ℕ → List (String × UnderlyingGroup) → List (String × UnderlyingGroup)
  | _, [] => []
  | 0, (u, g) :: rest => (u, { g with «open» := !g.«open» }) :: rest
  | k + 1, p :: rest => p :: flipAt k rest

/-- Overwrite the greeks of every record of the portfolio (used to express
that the monetary aggregates do not depend on the greeks). -/
def setAllGreeks (gk : SimpleGreeks) (app : App) : App :=
  { app with
    groups :=
      app.groups.map fun p =>
        (p.1, { p.2 with records := p.2.records.map fun q => (q.1, { q.2 with greeks := gk }) }) }

/-- The app states reachable at runtime: the bootstrapped state, closed under
the event-loop dispatches (toggle/next/previous key handling — `next` and
`previous` only step when they do not panic — and quote, greeks and balance
events). -/
inductive Reachable : App → Prop
  | boot (gs : List (String × UnderlyingGroup)) (bs : List (String × Decimal)) :
      Reachable (App.new gs bs)
  | toggle {app : App} : Reachable app → Reachable app.toggle_group
  | next {app a : App} : Reachable app → app.next = some a → Reachable a
  | previous {app a : App} : Reachable app → app.previous = some a → Reachable a
  | quote {app : App} (sym : String) (bid ask : FloatVal) :
      Reachable app → Reachable (applyQuote app sym bid ask)
  | greeks {app : App} (sym : String) (theta delta : FloatVal) :
      Reachable app → Reachable (applyGreeks app sym theta delta)
  | balance {app : App} (acct : String) (v : Decimal) :
      Reachable app → Reachable (applyBalance app acct v)

/-! Concrete states used by counterexamples and witnesses. -/

/-- A long position marked at 2.50, used by the C1 counterexample. -/
def recC1 : PriceRecord :=
  { symbol := "AAPL", «open» := 3/2, current := 5/2, amount := 1,
    multiplier := 1, direction := .Long,
    greeks := { theta := .finite 0, delta := .finite 0 } }

def appC1 : App := App.new [("AAPL", { «open» := true, records := [("AAPL_S", recC1)] })] []

/-- A record whose stored theta is NaN, in an open group, with a nonzero
portfolio total. -/
def recNanTheta : PriceRecord :=
  { symbol := "X", «open» := 1, current := 1, amount := 1,
    multiplier := 1, direction := .Long,
    greeks := { theta := .nan, delta := .finite 0 } }

def appNanTheta : App :=
  App.new [("X", { «open» := true, records := [("XS", recNanTheta)] })] []

/-- A record whose signed net-liq is 0 (current price 0), making
`position_total` zero. -/
def recZeroTotal : PriceRecord :=
  { symbol := "Z", «open» := 1, current := 0, amount := 1,
    multiplier := 1, direction := .Long,
    greeks := { theta := .finite 0, delta := .finite 0 } }

def appZeroTotal : App :=
  App.new [("Z", { «open» := true, records := [("ZS", recZeroTotal)] })] []

/-- The short option position of the spec's scenario 2: open 3.50,
quantity 2, multiplier 100, direction Short. -/
def recC5 : PriceRecord :=
  { symbol := "SPY 240621P00400000", «open» := 7/2, current := 3, amount := 2,
    multiplier := 100, direction := .Short,
    greeks := { theta := .finite 0, delta := .finite 0 } }

def appC5 : App :=
  App.new [("SPY", { «open» := true, records := [("SPY_S", recC5)] })] []

/-- State `appC5` after the Quote{bid=2.40, ask=2.60} event for the position's
streamer symbol. -/
def appC5Quoted : App :=
  applyQuote appC5 "SPY_S" (.finite (12/5)) (.finite (13/5))

/-- Two groups with 2 open records each; selection on the second header
(row 3): used to exercise `toggle_group`. -/
def appTwoGroups : App :=
  { state := { selected := some 3 }
    groups :=
      [ ("AAPL", { «open» := true, records := [("A1", recC1), ("A2", recC1)] })
      , ("MSFT", { «open» := true, records := [("M1", recC1), ("M2", recC1)] }) ]
    num_lines := 6
    balances := [] }

/-- A group with no records, selected at its header row: used for the
zero-record toggle boundary case. -/
def appEmptyGroup : App :=
  { state := { selected := some 1 }
    groups :=
      [ ("AAPL", { «open» := false, records := [("A1", recC1)] })
      , ("EMPT", { «open» := false, records := [] }) ]
    num_lines := 2
    balances := [] }

/-- A two-row portfolio with the selection on row 1: used for the
next/previous round trip. -/
def appTwoRows : App :=
  { state := { selected := some 1 }
    groups := [("AAPL", { «open» := true, records := [("A1", recC1)] })]
    num_lines := 2
    balances := [] }

/-! ## Helper lemmas -/

lemma foldl_childCount_shift (gs : List (String × UnderlyingGroup)) :
    ∀ n m : ℕ, gs.foldl (fun acc p => acc + childCount p.2) (n + m)
      = n + gs.foldl (fun acc p => acc + childCount p.2) m := by
  induction gs with
  | nil => intro n m; rfl
  | cons p rest ih =>
    intro n m
    simp only [List.foldl_cons]
    rw [Nat.add_assoc, ih]

lemma foldl_childCount_eq_linesOf (gs : List (String × UnderlyingGroup)) :
    gs.foldl (fun acc p => acc + childCount p.2) gs.length = linesOf gs := by
  induction gs with
  | nil => rfl
  | cons p rest ih =>
    simp only [List.foldl_cons, List.length_cons, linesOf]
    have h1 : rest.length + 1 + childCount p.2 = (1 + childCount p.2) + rest.length := by
      omega
    rw [h1, foldl_childCount_shift, ih]

lemma update_num_lines_num (a : App) :
    a.update_num_lines.num_lines = linesOf a.groups :=
  foldl_childCount_eq_linesOf a.groups

lemma update_num_lines_groups (a : App) : a.update_num_lines.groups = a.groups := rfl

lemma update_num_lines_state (a : App) : a.update_num_lines.state = a.state := rfl

lemma linesOf_nonneg_pos {gs : List (String × UnderlyingGroup)} (h : gs ≠ []) :
    1 ≤ linesOf gs := by
  cases gs with
  | nil => exact absurd rfl h
  | cons p rest => simp only [linesOf]; omega

lemma headerHit_cons (s : ℕ) (u : String) (g : UnderlyingGroup)
    (rest : List (String × UnderlyingGroup)) (i : ℕ) :
    headerHit s ((u, g) :: rest) i =
      if i = s then some 0
      else (headerHit s rest (i + 1 + childCount g)).map (· + 1) := rfl

lemma toggleAux_cons (s : ℕ) (u : String) (g : UnderlyingGroup)
    (rest : List (String × UnderlyingGroup)) (i : ℕ) :
    toggleAux s ((u, g) :: rest) i =
      if i = s then (u, { g with «open» := !g.«open» }) :: rest
      else (u, g) :: toggleAux s rest (i + 1 + childCount g) := rfl

lemma toggleAux_lt (s : ℕ) :
    ∀ (gs : List (String × UnderlyingGroup)) (i : ℕ),
      s < i + linesOf gs → s < i + linesOf (toggleAux s gs i) := by
  intro gs
  induction gs with
  | nil => intro i h; exact h
  | cons p rest ih =>
    intro i h
    obtain ⟨u, g⟩ := p
    by_cases hi : i = s
    · subst hi
      simp only [toggleAux, if_pos rfl, linesOf]
      omega
    · simp only [toggleAux, if_neg hi, linesOf] at h ⊢
      by_cases hs : s < i + 1 + childCount g
      · omega
      · have h' : s < (i + 1 + childCount g) + linesOf rest := by omega
        have := ih (i + 1 + childCount g) h'
        omega

lemma headerHit_some_spec (s : ℕ) :
    ∀ (gs : List (String × UnderlyingGroup)) (i k : ℕ),
      headerHit s gs i = some k →
      s = i + linesOf (gs.take k) ∧ toggleAux s gs i = flipAt k gs := by
  intro gs
  induction gs with
  | nil => intro i k h; simp [headerHit] at h
  | cons p rest ih =>
    intro i k h
    obtain ⟨u, g⟩ := p
    by_cases hi : i = s
    · rw [headerHit_cons, if_pos hi, Option.some.injEq] at h
      subst h
      refine ⟨by simpa [linesOf] using hi.symm, ?_⟩
      rw [toggleAux_cons, if_pos hi]
      rfl
    · rw [headerHit_cons, if_neg hi, Option.map_eq_some'] at h
      obtain ⟨k', hk', rfl⟩ := h
      obtain ⟨h1, h2⟩ := ih (i + 1 + childCount g) k' hk'
      constructor
      · simp only [List.take_succ_cons, linesOf]
        omega
      · rw [toggleAux_cons, if_neg hi, h2]
        rfl

lemma headerHit_of_header (s : ℕ) :
    ∀ (gs : List (String × UnderlyingGroup)) (i k : ℕ), k < gs.length →
      s = i + linesOf (gs.take k) → headerHit s gs i = some k := by
  intro gs
  induction gs with
  | nil => intro i k h; simp at h
  | cons p rest ih =>
    intro i k hk hs
    obtain ⟨u, g⟩ := p
    cases k with
    | zero =>
      simp only [List.take_zero, linesOf] at hs
      simp [headerHit, hs]
    | succ k' =>
      simp only [List.take_succ_cons, linesOf] at hs
      have hne : ¬ (i = s) := by omega
      simp only [headerHit, if_neg hne]
      rw [ih (i + 1 + childCount g) k' (by simpa using hk) (by omega)]
      rfl

lemma toggleAux_of_headerHit_none (s : ℕ) :
    ∀ (gs : List (String × UnderlyingGroup)) (i : ℕ),
      headerHit s gs i = none → toggleAux s gs i = gs := by
  intro gs
  induction gs with
  | nil => intro i _; rfl
  | cons p rest ih =>
    intro i h
    obtain ⟨u, g⟩ := p
    by_cases hi : i = s
    · simp [headerHit, hi] at h
    · simp only [headerHit, if_neg hi, Option.map_eq_none'] at h
      simp only [toggleAux, if_neg hi, ih _ h]

lemma toggleAux_involutive (s : ℕ) :
    ∀ (gs : List (String × UnderlyingGroup)) (i : ℕ),
      toggleAux s (toggleAux s gs i) i = gs := by
  intro gs
  induction gs with
  | nil => intro i; rfl
  | cons p rest ih =>
    intro i
    obtain ⟨u, g⟩ := p
    by_cases hi : i = s
    · simp only [toggleAux, if_pos hi, Bool.not_not]
    · simp only [toggleAux, if_neg hi, ih]

lemma flipAt_getElem? :
    ∀ (k : ℕ) (gs : List (String × UnderlyingGroup)) (u : String) (g : UnderlyingGroup),
      gs[k]? = some (u, g) →
      (flipAt k gs)[k]? = some (u, { g with «open» := !g.«open» }) := by
  intro k
  induction k with
  | zero =>
    intro gs u g h
    cases gs with
    | nil => simp at h
    | cons p rest => simp_all [flipAt]
  | succ k' ih =>
    intro gs u g h
    cases gs with
    | nil => simp at h
    | cons p rest =>
      simp only [List.getElem?_cons_succ] at h
      simpa [flipAt] using ih rest u g h

lemma linesOf_flipAt_of_empty :
    ∀ (k : ℕ) (gs : List (String × UnderlyingGroup)) (u : String) (g : UnderlyingGroup),
      gs[k]? = some (u, g) → g.records = [] →
      linesOf (flipAt k gs) = linesOf gs := by
  intro k
  induction k with
  | zero =>
    intro gs u g h hrec
    cases gs with
    | nil => simp at h
    | cons p rest =>
      simp only [List.getElem?_cons_zero, Option.some.injEq] at h
      subst h
      simp [flipAt, linesOf, childCount, hrec]
  | succ k' ih =>
    intro gs u g h hrec
    cases gs with
    | nil => simp at h
    | cons p rest =>
      simp only [List.getElem?_cons_succ] at h
      simp [flipAt, linesOf, ih rest u g h hrec]

lemma updateFirstRec_length (symbol : String) (f : PriceRecord → PriceRecord) :
    ∀ (recs recs' : List (String × PriceRecord)),
      updateFirstRec symbol f recs = some recs' → recs'.length = recs.length := by
  intro recs
  induction recs with
  | nil => intro recs' h; simp [updateFirstRec] at h
  | cons p rest ih =>
    intro recs' h
    obtain ⟨s, r⟩ := p
    by_cases hs : s = symbol
    · rw [show updateFirstRec symbol f ((s, r) :: rest) =
          if s = symbol then some ((s, f r) :: rest)
          else (updateFirstRec symbol f rest).map ((s, r) :: ·) from rfl,
        if_pos hs, Option.some.injEq] at h
      subst h
      rfl
    · rw [show updateFirstRec symbol f ((s, r) :: rest) =
          if s = symbol then some ((s, f r) :: rest)
          else (updateFirstRec symbol f rest).map ((s, r) :: ·) from rfl,
        if_neg hs, Option.map_eq_some'] at h
      obtain ⟨rest', hrest, rfl⟩ := h
      simp [ih rest' hrest]

lemma linesOf_updateFirstGroup (symbol : String) (f : PriceRecord → PriceRecord) :
    ∀ gs : List (String × UnderlyingGroup),
      linesOf (updateFirstGroup symbol f gs) = linesOf gs := by
  intro gs
  induction gs with
  | nil => rfl
  | cons p rest ih =>
    obtain ⟨u, g⟩ := p
    rw [show updateFirstGroup symbol f ((u, g) :: rest) =
        match updateFirstRec symbol f g.records with
        | some recs => (u, { g with records := recs }) :: rest
        | none => (u, g) :: updateFirstGroup symbol f rest from rfl]
    cases hrec : updateFirstRec symbol f g.records with
    | some recs =>
      simp only [linesOf, childCount]
      rw [updateFirstRec_length symbol f g.records recs hrec]
    | none => simp only [linesOf, ih]

lemma updateFirstRec_none_of_findRec_none (symbol : String) (f : PriceRecord → PriceRecord) :
    ∀ recs : List (String × PriceRecord),
      findRec symbol recs = none → updateFirstRec symbol f recs = none := by
  intro recs
  induction recs with
  | nil => intro _; rfl
  | cons p rest ih =>
    intro h
    obtain ⟨s, r⟩ := p
    by_cases hs : s = symbol
    · rw [show findRec symbol ((s, r) :: rest) =
          if s = symbol then some r else findRec symbol rest from rfl, if_pos hs] at h
      exact absurd h (by simp)
    · rw [show findRec symbol ((s, r) :: rest) =
          if s = symbol then some r else findRec symbol rest from rfl, if_neg hs] at h
      rw [show updateFirstRec symbol f ((s, r) :: rest) =
          if s = symbol then some ((s, f r) :: rest)
          else (updateFirstRec symbol f rest).map ((s, r) :: ·) from rfl,
        if_neg hs, ih h]
      rfl

lemma updateFirstGroup_of_lookupRec_none (symbol : String) (f : PriceRecord → PriceRecord) :
    ∀ gs : List (String × UnderlyingGroup),
      lookupRec symbol gs = none → updateFirstGroup symbol f gs = gs := by
  intro gs
  induction gs with
  | nil => intro _; rfl
  | cons p rest ih =>
    intro h
    obtain ⟨u, g⟩ := p
    rw [show lookupRec symbol ((u, g) :: rest) =
        match findRec symbol g.records with
        | some r => some r
        | none => lookupRec symbol rest from rfl] at h
    cases hfind : findRec symbol g.records with
    | some r => rw [hfind] at h; exact absurd h (by simp)
    | none =>
      rw [hfind] at h
      rw [show updateFirstGroup symbol f ((u, g) :: rest) =
          match updateFirstRec symbol f g.records with
          | some recs => (u, { g with records := recs }) :: rest
          | none => (u, g) :: updateFirstGroup symbol f rest from rfl,
        updateFirstRec_none_of_findRec_none symbol f g.records hfind, ih h]

lemma next_some (app : App) (i : ℕ) (h : app.state.selected = some i) :
    app.next = (usizeSub app.num_lines 1).map fun m =>
      { app with state := { selected := some (if m ≤ i then 0 else i + 1) } } := by
  unfold App.next
  rw [h]

lemma next_none (app : App) (h : app.state.selected = none) :
    app.next = some { app with state := { selected := some 0 } } := by
  unfold App.next
  rw [h]

lemma previous_some (app : App) (i : ℕ) (h : app.state.selected = some i) :
    app.previous =
      if i = 0 then
        (usizeSub app.num_lines 1).map fun m =>
          { app with state := { selected := some m } }
      else some { app with state := { selected := some (i - 1) } } := by
  unfold App.previous
  rw [h]

lemma previous_none (app : App) (h : app.state.selected = none) :
    app.previous = some { app with state := { selected := some 0 } } := by
  unfold App.previous
  rw [h]

lemma next_same_model {app a : App} (h : app.next = some a) :
    a.groups = app.groups ∧ a.num_lines = app.num_lines ∧ a.balances = app.balances := by
  cases hsel : app.state.selected with
  | some i =>
    rw [next_some app i hsel] at h
    cases hsub : usizeSub app.num_lines 1 with
    | some m => rw [hsub] at h; simp at h; subst h; exact ⟨rfl, rfl, rfl⟩
    | none => rw [hsub] at h; simp at h
  | none =>
    rw [next_none app hsel] at h
    simp at h
    subst h
    exact ⟨rfl, rfl, rfl⟩

lemma previous_same_model {app a : App} (h : app.previous = some a) :
    a.groups = app.groups ∧ a.num_lines = app.num_lines ∧ a.balances = app.balances := by
  cases hsel : app.state.selected with
  | some i =>
    rw [previous_some app i hsel] at h
    by_cases hi : i = 0
    · rw [if_pos hi] at h
      cases hsub : usizeSub app.num_lines 1 with
      | some m => rw [hsub] at h; simp at h; subst h; exact ⟨rfl, rfl, rfl⟩
      | none => rw [hsub] at h; simp at h
    · rw [if_neg hi] at h
      simp at h
      subst h
      exact ⟨rfl, rfl, rfl⟩
  | none =>
    rw [previous_none app hsel] at h
    simp at h
    subst h
    exact ⟨rfl, rfl, rfl⟩

lemma mapOptM_eq_none_of_mem {α β : Type} (f : α → Option β) :
    ∀ (l : List α) (x : α), x ∈ l → f x = none → mapOptM f l = none := by
  intro l
  induction l with
  | nil => intro x hx; simp at hx
  | cons a rest ih =>
    intro x hx hfx
    rw [show mapOptM f (a :: rest) =
        (f a).bind (fun b => (mapOptM f rest).bind fun bs => some (b :: bs)) from rfl]
    rcases List.mem_cons.mp hx with rfl | hmem
    · rw [hfx]; rfl
    · cases hfa : f a with
      | none => rfl
      | some b => rw [ih x hmem hfx]; rfl

lemma toggle_some (app : App) (s : ℕ) (h : app.state.selected = some s) :
    app.toggle_group = App.update_num_lines { app with groups := toggleAux s app.groups 0 } := by
  unfold App.toggle_group
  rw [h]

lemma toggle_none (app : App) (h : app.state.selected = none) :
    app.toggle_group = app := by
  unfold App.toggle_group
  rw [h]

lemma toggle_group_state (app : App) : app.toggle_group.state = app.state := by
  cases hsel : app.state.selected with
  | none => rw [toggle_none app hsel]
  | some s => rw [toggle_some app s hsel]; rfl

lemma toggle_group_groups (app : App) (s : ℕ) (h : app.state.selected = some s) :
    app.toggle_group.groups = toggleAux s app.groups 0 := by
  rw [toggle_some app s h]
  rfl

lemma toggle_group_num (app : App) (s : ℕ) (h : app.state.selected = some s) :
    app.toggle_group.num_lines = linesOf (toggleAux s app.groups 0) := by
  rw [toggle_some app s h]
  exact update_num_lines_num _

lemma fromF64_eq_none_of_not_finite {v : FloatVal} (h : v.isFinite = false) :
    Decimal.fromF64 v = none := by
  cases v <;> simp_all [FloatVal.isFinite, Decimal.fromF64]

lemma renderRecordRow_total_zero (u : String) (r : PriceRecord) :
    renderRecordRow u 0 r = none := by
  unfold renderRecordRow
  cases hθ : Decimal.fromF64 r.greeks.theta with
  | none => rfl
  | some t =>
    cases hδ : Decimal.fromF64 r.greeks.delta with
    | none => rfl
    | some d => simp [decDiv]

lemma renderRecordRow_of_nonfinite (u : String) (total : ℚ) (r : PriceRecord)
    (h : Decimal.fromF64 r.greeks.theta = none ∨ Decimal.fromF64 r.greeks.delta = none) :
    renderRecordRow u total r = none := by
  unfold renderRecordRow
  rcases h with hθ | hδ
  · rw [hθ]
    rfl
  · cases hθ : Decimal.fromF64 r.greeks.theta with
    | none => rfl
    | some t => rw [hδ]; rfl

lemma renderGroup_total_zero (u : String) (g : UnderlyingGroup) :
    renderGroup 0 u g = none := by
  unfold renderGroup
  by_cases ho : g.«open»
  · rw [if_pos ho]
    cases hm : mapOptM (fun p => renderRecordRow u 0 p.2) g.records with
    | none => rfl
    | some rows => simp [decDiv]
  · rw [if_neg ho]
    simp [decDiv]

lemma renderGroup_none_of_row (total : ℚ) (u : String) (g : UnderlyingGroup)
    (ho : g.«open» = true) {s : String} {r : PriceRecord}
    (hr : (s, r) ∈ g.records) (hrow : renderRecordRow u total r = none) :
    renderGroup total u g = none := by
  unfold renderGroup
  rw [if_pos ho, mapOptM_eq_none_of_mem _ g.records (s, r) hr hrow]
  rfl

lemma ui_none_of_group {app : App} {u : String} {g : UnderlyingGroup}
    (hg : (u, g) ∈ app.groups)
    (h : renderGroup (position_total app) u g = none) :
    ui app = none := by
  simp only [ui]
  rw [mapOptM_eq_none_of_mem _ app.groups (u, g) hg h]
  rfl

lemma to_net_greeks_irrelevant (r : PriceRecord) (gk : SimpleGreeks) (v : ℚ) :
    to_net { r with greeks := gk } v = to_net r v := rfl

lemma position_total_setAllGreeks (gk : SimpleGreeks) (app : App) :
    position_total (setAllGreeks gk app) = position_total app := by
  unfold position_total setAllGreeks
  rw [List.foldl_map]
  congr 1
  funext acc p
  rw [List.foldl_map]
  rfl

lemma groupSums_setAllGreeks (gk : SimpleGreeks) (app : App) :
    (setAllGreeks gk app).groups.map (fun p => (groupProfitSum p.2, groupNetLiqSum p.2)) =
      app.groups.map fun p => (groupProfitSum p.2, groupNetLiqSum p.2) := by
  unfold setAllGreeks
  simp only [List.map_map]
  congr 1
  funext p
  unfold groupProfitSum groupNetLiqSum
  simp only [Function.comp_apply]
  rw [List.foldl_map, List.foldl_map]
  rfl

/-! ## Claim theorems -/

/-- C9: a quote event whose streamer symbol matches no record in any group
leaves the entire app state (records, balances, navigation) unchanged, so
the rendered frame is identical to the prior frame. -/
theorem quote_unknown_symbol_noop (app : App) (sym : String) (bid ask : FloatVal)
    (h : app.get_record sym = none) :
    applyQuote app sym bid ask = app ∧ ui (applyQuote app sym bid ask) = ui app := by
  have h' : lookupRec sym app.groups = none := h
  have hg :
      updateFirstGroup sym
        (fun r => { r with current := (Decimal.fromF64 (fdiv2 (fadd bid ask))).getD 0 })
        app.groups = app.groups :=
    updateFirstGroup_of_lookupRec_none sym _ app.groups h'
  have h1 : applyQuote app sym bid ask = app := by
    unfold applyQuote
    rw [hg]
  exact ⟨h1, by rw [h1]⟩

theorem quote_unknown_symbol_noop_witness :
    applyQuote appC5 "NOPE" (FloatVal.finite 1) (FloatVal.finite 2) = appC5 ∧
    ui (applyQuote appC5 "NOPE" (FloatVal.finite 1) (FloatVal.finite 2)) = ui appC5 :=
  quote_unknown_symbol_noop appC5 "NOPE" (FloatVal.finite 1) (FloatVal.finite 2)
    (by with_unfolding_all decide)

/-- C10: when `num_lines` is zero, a first `next` or `previous` still sets
the selection to `Some(0)` (violating `selected < num_lines`), and with the
selection set both `next` and `previous` evaluate `num_lines - 1` on an
unsigned zero — an arithmetic underflow (debug-build panic, modelled by
`none`) rather than a guarded no-op. -/
theorem empty_portfolio_navigation_underflows (app : App) (h : app.num_lines = 0) :
    App.next { app with state := { selected := none } } =
      some { app with state := { selected := some 0 } } ∧
    App.previous { app with state := { selected := none } } =
      some { app with state := { selected := some 0 } } ∧
    ¬ 0 < app.num_lines ∧
    App.next { app with state := { selected := some 0 } } = none ∧
    App.previous { app with state := { selected := some 0 } } = none := by
  refine ⟨next_none _ rfl, previous_none _ rfl, by omega, ?_, ?_⟩
  · rw [next_some _ 0 rfl]
    have hsub : usizeSub ({ app with state := { selected := some 0 } } : App).num_lines 1 = none := by
      unfold usizeSub
      rw [if_neg (by simpa using by omega)]
    rw [hsub]
    rfl
  · rw [previous_some _ 0 rfl, if_pos rfl]
    have hsub : usizeSub ({ app with state := { selected := some 0 } } : App).num_lines 1 = none := by
      unfold usizeSub
      rw [if_neg (by simpa using by omega)]
    rw [hsub]
    rfl

theorem empty_portfolio_navigation_underflows_witness :
    App.next { App.new [] [] with state := { selected := none } } =
      some { App.new [] [] with state := { selected := some 0 } } ∧
    App.previous { App.new [] [] with state := { selected := none } } =
      some { App.new [] [] with state := { selected := some 0 } } ∧
    ¬ 0 < (App.new [] []).num_lines ∧
    App.next { App.new [] [] with state := { selected := some 0 } } = none ∧
    App.previous { App.new [] [] with state := { selected := some 0 } } = none :=
  empty_portfolio_navigation_underflows (App.new [] []) (by with_unfolding_all rfl)

/-- C8: with the selection set, `2 ≤ num_lines` and `selected < num_lines`,
`next` advances the selection by 1 modulo `num_lines` and `next` followed by
`previous` restores the original selection. -/
theorem next_previous_roundtrip (app : App) (i : ℕ)
    (h1 : app.state.selected = some i) (h2 : 2 ≤ app.num_lines)
    (h3 : i < app.num_lines) :
    (app.next.map fun a => a.state.selected) = some (some ((i + 1) % app.num_lines)) ∧
    ((app.next.bind App.previous).map fun a => a.state.selected) = some (some i) := by
  have hsub : usizeSub app.num_lines 1 = some (app.num_lines - 1) := by
    unfold usizeSub
    rw [if_pos (by omega)]
  rw [next_some app i h1, hsub]
  simp only [Option.map_some', Option.some_bind]
  by_cases hc : app.num_lines - 1 ≤ i
  · have hieq : i = app.num_lines - 1 := by omega
    rw [if_pos hc]
    have hmod : (i + 1) % app.num_lines = 0 := by
      rw [hieq, Nat.sub_add_cancel (by omega), Nat.mod_self]
    refine ⟨by rw [hmod], ?_⟩
    rw [previous_some _ 0 rfl, if_pos rfl]
    have hsub2 :
        usizeSub ({ app with state := { selected := some 0 } } : App).num_lines 1 =
          some (app.num_lines - 1) := hsub
    rw [hsub2]
    simp only [Option.map_some', Option.some.injEq]
    rw [hieq]
  · rw [if_neg hc]
    have hmod : (i + 1) % app.num_lines = i + 1 := Nat.mod_eq_of_lt (by omega)
    refine ⟨by rw [hmod], ?_⟩
    rw [previous_some _ (i + 1) rfl, if_neg (by omega)]
    simp only [Option.map_some', Option.some.injEq, Nat.add_sub_cancel]

theorem next_previous_roundtrip_witness :
    (appTwoRows.next.map fun a => a.state.selected) =
      some (some ((1 + 1) % appTwoRows.num_lines)) ∧
    ((appTwoRows.next.bind App.previous).map fun a => a.state.selected) =
      some (some 1) :=
  next_previous_roundtrip appTwoRows 1 rfl (by with_unfolding_all decide)
    (by with_unfolding_all decide)

lemma reachable_num_lines {app : App} (h : Reachable app) :
    app.num_lines = linesOf app.groups := by
  induction h with
  | boot gs bs => exact update_num_lines_num _
  | toggle ha ih =>
    rename_i app'
    cases hsel : app'.state.selected with
    | none => rw [toggle_none _ hsel]; exact ih
    | some s => rw [toggle_some _ s hsel]; exact update_num_lines_num _
  | next ha hn ih =>
    obtain ⟨hg, hn', _⟩ := next_same_model hn
    rw [hn', hg]
    exact ih
  | previous ha hp ih =>
    obtain ⟨hg, hn', _⟩ := previous_same_model hp
    rw [hn', hg]
    exact ih
  | quote sym bid ask ha ih =>
    show _ = linesOf (updateFirstGroup sym _ _)
    rw [linesOf_updateFirstGroup]
    exact ih
  | greeks sym theta delta ha ih =>
    show _ = linesOf (updateFirstGroup sym _ _)
    rw [linesOf_updateFirstGroup]
    exact ih
  | balance acct v ha ih => exact ih

/-- C6: with a selection set, `toggle_group` flips the `open` flag of exactly
the group whose header row sits at the selected index of the current
flattening (`headerHit` finds the group whose cumulative row index — one row
per group plus its children when pre-toggle open — equals the selection);
when no header matches (a child row is selected), no group changes; and a
double toggle with the same selection restores the groups. -/
theorem toggle_group_flips_exactly_selected_header (app : App) (s k : ℕ)
    (h : app.state.selected = some s) :
    (headerHit s app.groups 0 = some k →
      s = linesOf (app.groups.take k) ∧
      app.toggle_group.groups = flipAt k app.groups) ∧
    (k < app.groups.length → s = linesOf (app.groups.take k) →
      headerHit s app.groups 0 = some k) ∧
    (headerHit s app.groups 0 = none → app.toggle_group.groups = app.groups) ∧
    app.toggle_group.toggle_group.groups = app.groups := by
  refine ⟨?_, ?_, ?_, ?_⟩
  · intro hh
    obtain ⟨h1, h2⟩ := headerHit_some_spec s app.groups 0 k hh
    refine ⟨by omega, ?_⟩
    rw [toggle_group_groups app s h]
    exact h2
  · intro hk hs
    exact headerHit_of_header s app.groups 0 k hk (by omega)
  · intro hh
    rw [toggle_group_groups app s h]
    exact toggleAux_of_headerHit_none s app.groups 0 hh
  · have hst : app.toggle_group.state.selected = some s := by
      rw [toggle_group_state]
      exact h
    rw [toggle_group_groups _ s hst, toggle_group_groups app s h]
    exact toggleAux_involutive s app.groups 0

theorem toggle_group_flips_exactly_selected_header_witness :
    (headerHit 3 appTwoGroups.groups 0 = some 1 →
      3 = linesOf (appTwoGroups.groups.take 1) ∧
      appTwoGroups.toggle_group.groups = flipAt 1 appTwoGroups.groups) ∧
    (1 < appTwoGroups.groups.length → 3 = linesOf (appTwoGroups.groups.take 1) →
      headerHit 3 appTwoGroups.groups 0 = some 1) ∧
    (headerHit 3 appTwoGroups.groups 0 = none →
      appTwoGroups.toggle_group.groups = appTwoGroups.groups) ∧
    appTwoGroups.toggle_group.toggle_group.groups = appTwoGroups.groups :=
  toggle_group_flips_exactly_selected_header appTwoGroups 3 1 rfl

/-- C7: in every reachable state, `num_lines` equals the sum over groups of
1 plus the open group's record count (`linesOf`); and toggling a selected
group with zero records flips its `open` flag while leaving `num_lines`
unchanged. -/
theorem num_lines_invariant_and_empty_toggle (app : App) (h : Reachable app)
    (s k : ℕ) (u : String) (g : UnderlyingGroup) :
    app.num_lines = linesOf app.groups ∧
    (app.state.selected = some s → headerHit s app.groups 0 = some k →
      app.groups[k]? = some (u, g) → g.records = [] →
      app.toggle_group.groups = flipAt k app.groups ∧
      (app.toggle_group.groups[k]?).map (fun p => p.2.«open») = some (!g.«open») ∧
      app.toggle_group.num_lines = app.num_lines) := by
  have hinv := reachable_num_lines h
  refine ⟨hinv, ?_⟩
  intro hsel hh hget hrec
  have h2 := (headerHit_some_spec s app.groups 0 k hh).2
  have hgr : app.toggle_group.groups = flipAt k app.groups := by
    rw [toggle_group_groups app s hsel]
    exact h2
  refine ⟨hgr, ?_, ?_⟩
  · rw [hgr, flipAt_getElem? k app.groups u g hget]
    rfl
  · rw [toggle_group_num app s hsel, h2,
      linesOf_flipAt_of_empty k app.groups u g hget hrec]
    exact hinv.symm

/-- The empty-group scenario before any navigation. -/
def appEmptyGroupStart : App := App.new appEmptyGroup.groups []

/-- The empty-group scenario after one `next` (selection on row 0). -/
def appEmptyGroupMid : App := { appEmptyGroup with state := { selected := some 0 } }

theorem num_lines_invariant_and_empty_toggle_witness :
    appEmptyGroup.num_lines = linesOf appEmptyGroup.groups ∧
    (appEmptyGroup.state.selected = some 1 → headerHit 1 appEmptyGroup.groups 0 = some 1 →
      appEmptyGroup.groups[1]? = some ("EMPT", { «open» := false, records := [] }) →
      ({ «open» := false, records := [] } : UnderlyingGroup).records = [] →
      appEmptyGroup.toggle_group.groups = flipAt 1 appEmptyGroup.groups ∧
      (appEmptyGroup.toggle_group.groups[1]?).map (fun p => p.2.«open») =
        some (!({ «open» := false, records := [] } : UnderlyingGroup).«open») ∧
      appEmptyGroup.toggle_group.num_lines = appEmptyGroup.num_lines) :=
  num_lines_invariant_and_empty_toggle appEmptyGroup
    (@Reachable.next appEmptyGroupMid appEmptyGroup
      (@Reachable.next appEmptyGroupStart appEmptyGroupMid
        (Reachable.boot appEmptyGroup.groups [])
        (by with_unfolding_all decide))
      (by with_unfolding_all decide))
    1 1 "EMPT" { «open» := false, records := [] }

/-- C4 counterexample: from the empty bootstrapped portfolio
(`num_lines = 0`), `next` succeeds and sets the selection to 0, yet
`selected < num_lines` fails — so "0 ≤ selected < num_lines whenever
selected is set" is not an invariant of every operation, and no clamping
code exists to restore it. -/
theorem selected_bound_not_invariant :
    (App.new [] []).next =
      some { state := { selected := some 0 }, groups := [], num_lines := 0, balances := [] } ∧
    ¬ (0 : ℕ) <
        ({ state := { selected := some 0 }, groups := [], num_lines := 0,
            balances := [] } : App).num_lines := by
  with_unfolding_all decide

/-- C4 amended: when the portfolio has at least one group, the bound
`selected < num_lines` is preserved by `toggle_group` (which recomputes
`num_lines`; the selection stays below the recomputed count without any
clamping — none exists in the code and none is needed) and by every
successful `next`/`previous` step.  With zero groups the bound is violated
(see the counterexample). -/
theorem selected_bound_preserved (app a : App) (i : ℕ)
    (hne : app.groups ≠ [])
    (hnl : app.num_lines = linesOf app.groups)
    (hsel : ∀ j, app.state.selected = some j → j < app.num_lines) :
    (app.toggle_group.num_lines = linesOf app.toggle_group.groups ∧
      (app.toggle_group.state.selected = some i → i < app.toggle_group.num_lines)) ∧
    (app.next = some a → a.state.selected = some i → i < a.num_lines) ∧
    (app.previous = some a → a.state.selected = some i → i < a.num_lines) := by
  have hpos : 1 ≤ app.num_lines := hnl ▸ linesOf_nonneg_pos hne
  refine ⟨?_, ?_, ?_⟩
  · cases hs : app.state.selected with
    | none =>
      rw [toggle_none app hs]
      exact ⟨hnl, hsel i⟩
    | some s =>
      refine ⟨by rw [toggle_group_num app s hs, toggle_group_groups app s hs], ?_⟩
      intro hi
      rw [toggle_group_state app, hs] at hi
      obtain rfl : s = i := by injection hi
      rw [toggle_group_num app s hs]
      have hlt : s < 0 + linesOf app.groups := by
        have := hsel s hs
        omega
      have := toggleAux_lt s app.groups 0 hlt
      omega
  · intro hn hi
    cases hs : app.state.selected with
    | none =>
      rw [next_none app hs] at hn
      obtain rfl : _ = a := Option.some.inj hn
      obtain rfl : 0 = i := by injection hi
      show 0 < app.num_lines
      omega
    | some j =>
      rw [next_some app j hs] at hn
      cases hsub : usizeSub app.num_lines 1 with
      | none => rw [hsub] at hn; exact absurd hn (by simp)
      | some m =>
        have hm : m = app.num_lines - 1 := by
          unfold usizeSub at hsub
          rw [if_pos (by omega)] at hsub
          exact (Option.some.inj hsub).symm
        rw [hsub] at hn
        simp only [Option.map_some', Option.some.injEq] at hn
        subst hn
        simp only at hi
        obtain rfl : (if m ≤ j then 0 else j + 1) = i := by injection hi
        show (if m ≤ j then 0 else j + 1) < app.num_lines
        by_cases hc : m ≤ j
        · rw [if_pos hc]; omega
        · rw [if_neg hc]; omega
  · intro hp hi
    cases hs : app.state.selected with
    | none =>
      rw [previous_none app hs] at hp
      obtain rfl : _ = a := Option.some.inj hp
      obtain rfl : 0 = i := by injection hi
      show 0 < app.num_lines
      omega
    | some j =>
      rw [previous_some app j hs] at hp
      by_cases hj : j = 0
      · rw [if_pos hj] at hp
        cases hsub : usizeSub app.num_lines 1 with
        | none => rw [hsub] at hp; exact absurd hp (by simp)
        | some m =>
          have hm : m = app.num_lines - 1 := by
            unfold usizeSub at hsub
            rw [if_pos (by omega)] at hsub
            exact (Option.some.inj hsub).symm
          rw [hsub] at hp
          simp only [Option.map_some', Option.some.injEq] at hp
          subst hp
          obtain rfl : m = i := by injection hi
          show m < app.num_lines
          omega
      · rw [if_neg hj] at hp
        obtain rfl : _ = a := Option.some.inj hp
        obtain rfl : j - 1 = i := by injection hi
        show j - 1 < app.num_lines
        have := hsel j hs
        omega

/-- State `appTwoRows` after a `next` step. -/
def appTwoRowsNext : App := { appTwoRows with state := { selected := some 0 } }

theorem selected_bound_preserved_witness :
    (appTwoRows.toggle_group.num_lines = linesOf appTwoRows.toggle_group.groups ∧
      (appTwoRows.toggle_group.state.selected = some 0 →
        0 < appTwoRows.toggle_group.num_lines)) ∧
    (appTwoRows.next = some appTwoRowsNext →
      appTwoRowsNext.state.selected = some 0 → 0 < appTwoRowsNext.num_lines) ∧
    (appTwoRows.previous = some appTwoRowsNext →
      appTwoRowsNext.state.selected = some 0 → 0 < appTwoRowsNext.num_lines) :=
  selected_bound_preserved appTwoRows appTwoRowsNext 0
    (by with_unfolding_all decide)
    (by with_unfolding_all decide)
    (by
      intro j hj
      have hj' : some 1 = some j := hj
      cases hj'
      with_unfolding_all decide)

/-- C1 counterexample: a Quote with a NaN bid has a non-finite midpoint, and
applying it does not leave `current` unchanged — `unwrap_or_default()`
overwrites the stored 2.50 with Decimal zero. -/
theorem quote_nan_midpoint_overwrites_current :
    FloatVal.isFinite (fdiv2 (fadd FloatVal.nan (FloatVal.finite 1))) = false ∧
    ((appC1.get_record "AAPL_S").map fun r => r.current) = some (5/2) ∧
    (((applyQuote appC1 "AAPL_S" FloatVal.nan (FloatVal.finite 1)).get_record "AAPL_S").map
        fun r => r.current) = some 0 ∧
    applyQuote appC1 "AAPL_S" FloatVal.nan (FloatVal.finite 1) ≠ appC1 := by
  with_unfolding_all decide

/-- C1 amended: for every record and quote whose f64 midpoint is NaN or
infinite, applying the quote never panics (the conversion is total), but the
matched record's `current` is overwritten with `Decimal::default()` = 0
rather than left unchanged; nothing else changes. -/
theorem quote_nonfinite_midpoint_sets_current_zero (app : App) (sym : String)
    (bid ask : FloatVal) (h : FloatVal.isFinite (fdiv2 (fadd bid ask)) = false) :
    applyQuote app sym bid ask =
      { app with
        groups := updateFirstGroup sym (fun r => { r with current := 0 }) app.groups } := by
  unfold applyQuote
  rw [fromF64_eq_none_of_not_finite h]
  rfl

theorem quote_nonfinite_midpoint_sets_current_zero_witness :
    applyQuote appC1 "AAPL_S" FloatVal.inf (FloatVal.finite 1) =
      { appC1 with
        groups := updateFirstGroup "AAPL_S" (fun r => { r with current := 0 }) appC1.groups } :=
  quote_nonfinite_midpoint_sets_current_zero appC1 "AAPL_S" FloatVal.inf (FloatVal.finite 1)
    (by with_unfolding_all decide)

/-- C2 counterexample: a stored NaN theta in an open group (with a nonzero
portfolio total, so no division by zero is involved) makes rendering panic
(`ui = none`) instead of producing a NaN token. -/
theorem greeks_nan_render_panics :
    ((appNanTheta.get_record "XS").map fun r => r.greeks.theta) = some FloatVal.nan ∧
    position_total appNanTheta ≠ 0 ∧
    ui appNanTheta = none := by
  with_unfolding_all decide

/-- Zero greeks, used to restate all-greeks replacement concretely. -/
def gkZero : SimpleGreeks := { theta := .finite 0, delta := .finite 0 }

/-- C2 amended: a record with NaN or infinite theta or delta in an open
group makes frame rendering panic on `Decimal::from_f64(...).unwrap()`
(modelled `ui = none`); the greeks nevertheless never propagate into the
monetary aggregates — the portfolio total and every group's profit and
net-liq sums are invariant under replacing all greeks. -/
theorem greeks_nonfinite_panics_but_do_not_poison_sums (app : App)
    (u : String) (g : UnderlyingGroup) (s : String) (r : PriceRecord) (gk : SimpleGreeks)
    (hg : (u, g) ∈ app.groups) (ho : g.«open» = true) (hr : (s, r) ∈ g.records)
    (hnf : Decimal.fromF64 r.greeks.theta = none ∨ Decimal.fromF64 r.greeks.delta = none) :
    ui app = none ∧
    position_total (setAllGreeks gk app) = position_total app ∧
    (setAllGreeks gk app).groups.map (fun p => (groupProfitSum p.2, groupNetLiqSum p.2)) =
      app.groups.map fun p => (groupProfitSum p.2, groupNetLiqSum p.2) :=
  ⟨ui_none_of_group hg
      (renderGroup_none_of_row _ u g ho hr (renderRecordRow_of_nonfinite u _ r hnf)),
    position_total_setAllGreeks gk app,
    groupSums_setAllGreeks gk app⟩

theorem greeks_nonfinite_panics_but_do_not_poison_sums_witness :
    ui appNanTheta = none ∧
    position_total (setAllGreeks gkZero appNanTheta) = position_total appNanTheta ∧
    (setAllGreeks gkZero appNanTheta).groups.map
        (fun p => (groupProfitSum p.2, groupNetLiqSum p.2)) =
      appNanTheta.groups.map fun p => (groupProfitSum p.2, groupNetLiqSum p.2) :=
  greeks_nonfinite_panics_but_do_not_poison_sums appNanTheta
    "X" { «open» := true, records := [("XS", recNanTheta)] } "XS" recNanTheta gkZero
    (by with_unfolding_all decide) rfl (by with_unfolding_all decide)
    (Or.inl rfl)

/-- C3 counterexample: with `position_total = 0` and a row whose numerator
(`signed_value`) is also 0, rendering panics (`ui = none`) on the Decimal
division by zero instead of producing a `"0.00%"` cell. -/
theorem port_total_zero_render_panics :
    position_total appZeroTotal = 0 ∧
    signed_value recZeroTotal = 0 ∧
    ui appZeroTotal = none := by
  with_unfolding_all decide

/-- C3 amended: whenever `position_total` is zero and at least one group
exists, rendering panics on the PORT % `Decimal` division by zero
(`rust_decimal`'s `Div` panics on a zero divisor) regardless of the
numerator: no `"0.00%"` or `"NaN%"` cell is ever produced. -/
theorem port_total_zero_panics (app : App) (h0 : position_total app = 0)
    (hne : app.groups ≠ []) :
    ui app = none := by
  cases hgs : app.groups with
  | nil => exact absurd hgs hne
  | cons p rest =>
    obtain ⟨u, g⟩ := p
    have hmem : (u, g) ∈ app.groups := by
      rw [hgs]
      exact List.mem_cons_self _ rest
    refine ui_none_of_group hmem ?_
    rw [h0]
    exact renderGroup_total_zero u g

/-- A hedged pair (one long, one short leg of equal value) whose signed
net-liq values cancel: `position_total = 0` with nonzero row numerators. -/
def appCancelling : App :=
  App.new
    [ ("C",
       { «open» := true
         records :=
          [ ("C_L", { symbol := "C", «open» := 1, current := 1, amount := 1, multiplier := 1,
                      direction := .Long, greeks := gkZero })
          , ("C_S", { symbol := "CS", «open» := 1, current := 1, amount := 1, multiplier := 1,
                      direction := .Short, greeks := gkZero }) ] }) ] []

theorem port_total_zero_panics_witness : ui appCancelling = none :=
  port_total_zero_panics appCancelling (by with_unfolding_all rfl)
    (by with_unfolding_all decide)

set_option maxRecDepth 16000 in
/-- C5: the short option scenario.  After Quote{bid=2.40, ask=2.60}
(`(2.4 + 2.6) / 2.0` is exactly 2.5 in IEEE f64): `current = 2.5`, the
signed net-liq is `round2(2.5 × 2 × 100 × −1) = −500`, the profit is
`round2((2.5 − 3.5) × 2 × 100 × −1) = 200`, the AMOUNT cell is
`round5(2 × −1) = −2`, and the full rendered frame shows those cells. -/
theorem short_option_quote_scenario :
    ((appC5Quoted.get_record "SPY_S").map fun r => r.current) = some (5/2) ∧
    signed_value { recC5 with current := 5/2 } = -500 ∧
    to_net { recC5 with current := 5/2 } (5/2 - 7/2) = 200 ∧
    roundDp 5 (recC5.amount * sign recC5.direction) = -2 ∧
    ui appC5Quoted = some
      [ [.pct 100, .txt "SPY", .txt "", .txt "", .txt "", .num 200, .txt "", .txt "",
          .num (-500)]
      , [.pct 100, .txt " SPY 240621P00400000", .num (5/2), .num (-2), .num (7/2),
          .num 200, .num 0, .num 0, .num (-500)]
      , [.txt ""], [.txt "CASH"], [.txt ""], [.txt "TOTAL", .num (-500)] ] := by
  with_unfolding_all decide
